import Mathlib

/-!
Verification development for the mcp-server-synth repository.

The definitions below are shallow embeddings of the TypeScript source:

* namespace `Index`   : functions from src/src/index.ts
* namespace `Index3`  : functions from src/src/index_09232025_3.ts
  (mixBuffers is identical in src/src/index_09232025_2.ts)
* namespace `Part007` : the getChords variant from src/unnamed/part_007

JavaScript numbers are modelled by ℚ (audio samples) and ℕ (indices,
octaves, offsets).  Out-of-bounds array reads, which yield `undefined`
in JavaScript and produce the literal text "undefined" when interpolated
into a template string, are modelled by `List.getD _ "undefined"` for
string arrays and by the `JV` (JavaScript value) type with a `nan`
constructor where NaN can propagate into audio buffers.
-/

/-- Model of JavaScript's String.prototype.toLowerCase restricted to the
ASCII symbols that occur in progressions (built on Char.toLower so that it
reduces in the kernel). -/
def lowerString (s : String) : String := ⟨s.data.map Char.toLower⟩

namespace Index

/-- The scale table SCALES.cMinor from src/src/index.ts. -/
def cMinor : List String := ["C", "D", "D#", "F", "G", "G#", "A#"]

/-- The degree table of getChords in src/src/index.ts:
`{ i:0, ii:1, iii:2, iv:3, v:4, vi:5, vii:6 }`, looked up on the
lower-cased symbol. -/
def degreeMap (s : String) : Option Nat :=
  List.lookup s [("i", 0), ("ii", 1), ("iii", 2), ("iv", 3), ("v", 4), ("vi", 5), ("vii", 6)]

/-- getChords from src/src/index.ts (lines 97–103).  For a known degree the
triad is built from scale indices `b`, `(b+2) % 7`, `(b+4) % 7`; the first
two notes are suffixed with `octave` and the third with `octave + 1`.
For an unknown symbol the JavaScript code reads `scale[undefined]`, which
is `undefined`, and interpolates it, producing notes of the shape
"undefined<octave>"; no error is thrown. -/
def getChords (progression : List String) (scale : List String) (octave : Nat) :
    List (List String) :=
  progression.map fun degree =>
    match degreeMap (lowerString degree) with
    | some baseIndex =>
        [ scale.getD baseIndex "undefined" ++ toString octave,
          scale.getD ((baseIndex + 2) % 7) "undefined" ++ toString octave,
          scale.getD ((baseIndex + 4) % 7) "undefined" ++ toString (octave + 1) ]
    | none =>
        [ "undefined" ++ toString octave,
          "undefined" ++ toString octave,
          "undefined" ++ toString (octave + 1) ]

end Index

namespace Part007

/-- The degree table of getChords in src/unnamed/part_007 (same table as in
src/src/index.ts). -/
def degreeMap (s : String) : Option Nat :=
  List.lookup s [("i", 0), ("ii", 1), ("iii", 2), ("iv", 3), ("v", 4), ("vi", 5), ("vii", 6)]

/-- The local helper getNote of getChords in src/unnamed/part_007:
`noteIndex = index % scale.length`, `octaveChange = floor(index / scale.length)`,
note = `scale[noteIndex] + (octave + octaveChange)`. -/
def getNote (scale : List String) (octave : Nat) (index : Nat) : String :=
  scale.getD (index % scale.length) "undefined" ++ toString (octave + index / scale.length)

/-- getChords from src/unnamed/part_007 (lines 215–227).  For an unknown
symbol the JavaScript code computes `undefined % 7 = NaN`, reads
`scale[NaN] = undefined` and `octave + NaN = NaN`, so each note is the
literal text "undefinedNaN"; no error is thrown. -/
def getChords (progression : List String) (scale : List String) (octave : Nat) :
    List (List String) :=
  progression.map fun degree =>
    match degreeMap (lowerString degree) with
    | some baseIndex =>
        [ getNote scale octave baseIndex,
          getNote scale octave (baseIndex + 2),
          getNote scale octave (baseIndex + 4) ]
    | none => ["undefinedNaN", "undefinedNaN", "undefinedNaN"]

end Part007

/-- Modelled from the spec: the triad rule of §4.1 — notes are scale entries
at indices `base`, `base+2`, `base+4` reduced modulo 7, and a note's octave
is incremented by `floor(index / 7)` (so it is incremented exactly when the
unmodded index exceeds 6).  Used to compare the code's getChords variants
against the specified rule. -/
def specTriad (scale : List String) (octave : Nat) (base : Nat) : List String :=
  [base, base + 2, base + 4].map fun index =>
    scale.getD (index % 7) "undefined" ++ toString (octave + index / 7)

namespace Index

/-- The section names admitted by the Section interface of src/src/index.ts
(`"intro" | "verse" | "chorus" | "outro"`). -/
inductive SectionName where
  | intro : SectionName
  | verse : SectionName
  | chorus : SectionName
  | outro : SectionName
deriving DecidableEq

/-- The Section interface of src/src/index.ts: a name and a length in
measures. -/
structure Section where
  name : SectionName
  length : Nat
deriving DecidableEq

/-- A note event as passed to MidiWriter.NoteEvent by the drum patterns of
src/src/index.ts: pitch list, duration, and the optional channel, velocity,
startTick and repeat fields (the repeat field is called `reps` here). -/
structure NoteSpec where
  pitch : List String
  duration : String
  channel : Option Nat
  velocity : Option Nat
  startTick : Option Nat
  reps : Option Nat
deriving DecidableEq

/-- An event appended to the MidiWriter track by generateDrumTrack: either a
setTempo meta event (bpm, tick) or a note event. -/
inductive DrumEvent where
  | tempo : Nat → Nat → DrumEvent
  | note : NoteSpec → DrumEvent
deriving DecidableEq

/-- DRUM_PATTERNS.intro: one NoteEvent `{pitch:['C1'], duration:'4',
channel:10, repeat:4}`. -/
def introPatternEvents : List DrumEvent :=
  [DrumEvent.note ⟨["C1"], "4", some 10, none, none, some 4⟩]

/-- DRUM_PATTERNS.verse: four notes C1/F#1/D1/F#1 with velocities
100/70/90/70 and startTick `index * 128` from the addEvent map function. -/
def versePatternEvents : List DrumEvent :=
  [ DrumEvent.note ⟨["C1"], "4", some 10, some 100, some 0, none⟩,
    DrumEvent.note ⟨["F#1"], "4", some 10, some 70, some 128, none⟩,
    DrumEvent.note ⟨["D1"], "4", some 10, some 90, some 256, none⟩,
    DrumEvent.note ⟨["F#1"], "4", some 10, some 70, some 384, none⟩ ]

/-- DRUM_PATTERNS.chorus: C1/G#1/D1/G#1 with durations 4/8/4/8, velocities
110/80/100/80 and startTick `index * 128`. -/
def chorusPatternEvents : List DrumEvent :=
  [ DrumEvent.note ⟨["C1"], "4", some 10, some 110, some 0, none⟩,
    DrumEvent.note ⟨["G#1"], "8", some 10, some 80, some 128, none⟩,
    DrumEvent.note ⟨["D1"], "4", some 10, some 100, some 256, none⟩,
    DrumEvent.note ⟨["G#1"], "8", some 10, some 80, some 384, none⟩ ]

/-- DRUM_PATTERNS.fill: four D1 sixteenth notes, velocity `80 + i * 10`,
startTick `i * 32` for `i = 0..3`. -/
def fillEvents : List DrumEvent :=
  [ DrumEvent.note ⟨["D1"], "16", some 10, some 80, some 0, none⟩,
    DrumEvent.note ⟨["D1"], "16", some 10, some 90, some 32, none⟩,
    DrumEvent.note ⟨["D1"], "16", some 10, some 100, some 64, none⟩,
    DrumEvent.note ⟨["D1"], "16", some 10, some 110, some 96, none⟩ ]

/-- DRUM_PATTERNS.outro: identical to the intro pattern. -/
def outroPatternEvents : List DrumEvent :=
  [DrumEvent.note ⟨["C1"], "4", some 10, none, none, some 4⟩]

/-- The lookup `DRUM_PATTERNS[section.name] || DRUM_PATTERNS.verse` from
generateDrumTrack.  Every admissible section name is a key of the table, so
the `|| verse` fallback of the source is dead code here. -/
def drumPatternEvents : SectionName → List DrumEvent
  | SectionName.intro => introPatternEvents
  | SectionName.verse => versePatternEvents
  | SectionName.chorus => chorusPatternEvents
  | SectionName.outro => outroPatternEvents

/-- The needsFill condition of generateDrumTrack (line 120):
`i < struct.length - 1 && structure[i+1].name !== 'outro'`. -/
def needsFill (struct : List Section) (i : Nat) : Bool :=
  decide (i < struct.length - 1) &&
    (match struct[i + 1]? with
     | some nxt => decide (nxt.name ≠ SectionName.outro)
     | none => false)

/-- generateDrumTrack from src/src/index.ts (lines 115–132): for each
section index `i` and measure `measure`, first `track.setTempo(120,
measure * 4 * 128)` is called, then the fill pattern is emitted when the
measure is the last of the section and needsFill holds, otherwise the
section's normal pattern is emitted. -/
def generateDrumTrack (struct : List Section) : List DrumEvent :=
  (List.range struct.length).foldl
    (fun track i =>
      match struct[i]? with
      | none => track
      | some sec =>
          (List.range sec.length).foldl
            (fun t measure =>
              (t ++ [DrumEvent.tempo 120 (measure * 4 * 128)]) ++
                (if measure = sec.length - 1 ∧ needsFill struct i = true
                 then fillEvents
                 else drumPatternEvents sec.name))
            track)
    []

/-- The events generateDrumTrack emits for measure `m` of the section `s`
found at index `i` of the structure: the tempo meta event followed by
either the fill pattern (exactly on the section's last measure when the
following section exists and is not an outro) or the section's normal
pattern. -/
def measureChunk (struct : List Section) (i : Nat) (s : Section) (m : Nat) :
    List DrumEvent :=
  DrumEvent.tempo 120 (m * 4 * 128) ::
    (if m = s.length - 1 ∧ needsFill struct i = true
     then fillEvents
     else drumPatternEvents s.name)

/-- The chord map argument of the track generators in src/src/index.ts:
`{ verse: ..., chorus: ... }`. -/
structure ChordMap where
  verse : List (List String)
  chorus : List (List String)

/-- A MidiWriter event appended by generateArpeggioTrack: the initial
ProgramChangeEvent or a NoteEvent `{pitch:[p], duration:'16', velocity:80}`. -/
inductive ArpEvent where
  | prog : Nat → ArpEvent
  | note : String → String → Nat → ArpEvent
deriving DecidableEq

/-- ARP_PATTERNS.up: notes chord[0], chord[1], chord[2], chord[1], each a
sixteenth at velocity 80.  JavaScript out-of-bounds reads are modelled by
`getD _ "undefined"`. -/
def arpUp (chord : List String) : List ArpEvent :=
  [ ArpEvent.note (chord.getD 0 "undefined") "16" 80,
    ArpEvent.note (chord.getD 1 "undefined") "16" 80,
    ArpEvent.note (chord.getD 2 "undefined") "16" 80,
    ArpEvent.note (chord.getD 1 "undefined") "16" 80 ]

/-- ARP_PATTERNS.down: notes chord[2], chord[1], chord[0], chord[1]. -/
def arpDown (chord : List String) : List ArpEvent :=
  [ ArpEvent.note (chord.getD 2 "undefined") "16" 80,
    ArpEvent.note (chord.getD 1 "undefined") "16" 80,
    ArpEvent.note (chord.getD 0 "undefined") "16" 80,
    ArpEvent.note (chord.getD 1 "undefined") "16" 80 ]

/-- generateArpeggioTrack from src/src/index.ts (lines 158–171).  The track
starts with a ProgramChangeEvent; sections whose name is not "chorus" are
skipped; for each repetition unit `i` of a chorus section the chord
`chords.chorus[i % chords.chorus.length]` is arpeggiated four times with a
randomly chosen up/down pattern.  `rng n` models the n-th successive
`randomChoice([ARP_PATTERNS.up, ARP_PATTERNS.down])` draw made by this
function (`true` selects up); draws are counted in program order.  An empty
chorus chord list (never produced by the caller) is modelled as yielding
the empty chord. -/
def generateArpeggioTrack (struct : List Section) (chords : ChordMap)
    (instrument : Nat) (rng : Nat → Bool) : List ArpEvent :=
  (struct.foldl
    (fun (acc : List ArpEvent × Nat) sec =>
      if sec.name ≠ SectionName.chorus then acc
      else
        (List.range sec.length).foldl
          (fun (acc2 : List ArpEvent × Nat) i =>
            let chord := chords.chorus.getD (i % chords.chorus.length) []
            let pat := if rng acc2.2 then arpUp else arpDown
            (acc2.1 ++ pat chord ++ pat chord ++ pat chord ++ pat chord,
             acc2.2 + 1))
          acc)
    ([ArpEvent.prog instrument], 0)).1

end Index

namespace Index3

/-- The resampling loop of loadSample from src/src/index_09232025_3.ts
(lines 25–37; identical in src/src/index_09232025_2.ts).  File reading and
WAV decoding are plumbing and are abstracted: the function receives the
decoded channel data and the native sample rate.  Rates are rationals and
`Math.floor` is `Int.floor`; output length is
`floor(channelData.length * targetSampleRate / sampleRate)` and output
sample `i` is `channelData[floor(i * sampleRate / targetSampleRate)]`. -/
def loadSample (channelData : List ℚ) (sampleRate targetSampleRate : ℚ) : List ℚ :=
  (List.range (Int.toNat ⌊(channelData.length : ℚ) * targetSampleRate / sampleRate⌋)).map
    fun (i : Nat) => channelData.getD (Int.toNat ⌊(i : ℚ) * sampleRate / targetSampleRate⌋) 0

/-- pitchShift from src/src/index_09232025_3.ts (lines 40–48): the factor is
`Math.pow(2, semitones / 12)` (a real number), the new length is
`Math.floor(buffer.length / factor)` and sample `i` is
`buffer[Math.floor(i * factor)]`. -/
noncomputable def pitchShift (buffer : List ℚ) (semitones : ℤ) : List ℚ :=
  let factor : ℝ := (2 : ℝ) ^ ((semitones : ℝ) / 12)
  (List.range (Int.toNat ⌊(buffer.length : ℝ) / factor⌋)).map
    fun (i : Nat) => buffer.getD (Int.toNat ⌊(i : ℝ) * factor⌋) 0

/-- The output length computed by mixBuffers:
`Math.max(...buffers.map((b, i) => b.length + offsets[i]))`.  Buffers and
their offsets are passed as a single list of pairs (the source keeps two
parallel arrays and always builds them together). -/
def mixLength (bos : List (List ℚ × Nat)) : Nat :=
  (bos.map fun bo => bo.1.length + bo.2).foldl max 0

/-- The inner accumulation loop of mixBuffers for one buffer `buf` at
offset `offset`: `for j: track[offset + j] += buf[j]`. -/
def mixWrite (track : List ℚ) (buf : List ℚ) (offset : Nat) : List ℚ :=
  (List.range buf.length).foldl
    (fun t j => t.set (offset + j) (t.getD (offset + j) 0 + buf.getD j 0)) track

/-- The accumulation phase of mixBuffers: a zero track of length
`mixLength bos` into which every buffer is added at its offset. -/
def accumLoop (bos : List (List ℚ × Nat)) : List ℚ :=
  bos.foldl (fun t bo => mixWrite t bo.1 bo.2) (List.replicate (mixLength bos) 0)

/-- The peak computation of mixBuffers: `max` starts at 0 and is replaced by
`Math.abs(track[i])` whenever that is larger. -/
def peakOf (track : List ℚ) : ℚ :=
  track.foldl (fun m v => if |v| > m then |v| else m) 0

/-- The sample that the pair `bo = (buffer, offset)` contributes to
position `k` of the mixed track: `buffer[k - offset]` when `k` falls inside
the buffer's span, 0 otherwise. -/
def contrib (k : Nat) (bo : List ℚ × Nat) : ℚ :=
  if bo.2 ≤ k ∧ k - bo.2 < bo.1.length then bo.1.getD (k - bo.2) 0 else 0

/-- mixBuffers from src/src/index_09232025_3.ts (lines 82–104; identical in
src/src/index_09232025_2.ts lines 97–119): accumulate every buffer at its
offset into a track of length `mixLength`, then normalize by the peak when
the peak exceeds 1.  On an empty buffer list the JavaScript code computes
`Math.max()` = -Infinity and `new Float32Array(-Infinity)` throws a
RangeError; this failure is modelled as `none`. -/
def mixBuffers (bos : List (List ℚ × Nat)) : Option (List ℚ) :=
  match bos with
  | [] => none
  | _ :: _ =>
      let track := accumLoop bos
      some (if peakOf track > 1 then track.map (fun v => v / peakOf track) else track)

end Index3

/-- A JavaScript number as it can occur in the mixAudio buffer of
src/src/index.ts: either NaN (from reading `natureBuffer[i % 0]`, which is
`undefined`, and doing arithmetic on it) or an ordinary (finite) number
modelled as a rational. -/
inductive JV where
  | nan : JV
  | num : ℚ → JV
deriving DecidableEq

/-- JavaScript addition on `JV`: NaN propagates. -/
def jadd : JV → JV → JV
  | JV.nan, _ => JV.nan
  | JV.num _, JV.nan => JV.nan
  | JV.num a, JV.num b => JV.num (a + b)

/-- Division of a `JV` by an ordinary number (the normalization divisor
`max` is always an ordinary number because `NaN > max` is false, so `max`
is only ever replaced by finite absolute values): NaN stays NaN. -/
def jdivq : JV → ℚ → JV
  | JV.nan, _ => JV.nan
  | JV.num a, m => JV.num (a / m)

namespace Index

/-- The looped nature sample read by mixAudio at index `i`:
`natureBuffer[i % natureLength] * natureVolume`.  When the nature buffer is
empty, JavaScript computes `i % 0 = NaN`, `natureBuffer[NaN] = undefined`
and `undefined * natureVolume = NaN`. -/
def natureSampleAt (natureBuffer : List ℚ) (natureVolume : ℚ) (i : Nat) : JV :=
  match natureBuffer with
  | [] => JV.nan
  | _ :: _ => JV.num (natureBuffer.getD (i % natureBuffer.length) 0 * natureVolume)

/-- The accumulation loop of mixAudio (src/src/index.ts lines 78–82):
`mixed[i] = musicBuffer[i] + natureBuffer[i % natureLength] * natureVolume`
for `i < musicBuffer.length`. -/
def mixedRaw (musicBuffer natureBuffer : List ℚ) (natureVolume : ℚ) : List JV :=
  (List.range musicBuffer.length).map
    fun i => jadd (JV.num (musicBuffer.getD i 0)) (natureSampleAt natureBuffer natureVolume i)

/-- The peak computation of mixAudio: `max` starts at 0; `Math.abs(NaN)` is
NaN and `NaN > max` is false, so NaN entries never update `max`. -/
def jpeak (track : List JV) : ℚ :=
  track.foldl
    (fun m v => match v with
      | JV.nan => m
      | JV.num q => if |q| > m then |q| else m) 0

/-- mixAudio from src/src/index.ts (lines 73–95): accumulate the looped
nature sound onto the music buffer, then divide every sample by the peak if
the peak exceeds 1. -/
def mixAudio (musicBuffer natureBuffer : List ℚ) (natureVolume : ℚ) : List JV :=
  let mixed := mixedRaw musicBuffer natureBuffer natureVolume
  if jpeak mixed > 1 then mixed.map (fun v => jdivq v (jpeak mixed)) else mixed

end Index

/-! ### Helper lemmas -/

lemma degreeMap_lt_seven (s : String) (b : Nat) (h : Index.degreeMap s = some b) :
    b < 7 := by
  simp only [Index.degreeMap, List.lookup] at h
  repeat' split at h
  all_goals simp_all
  all_goals omega

lemma part007_degreeMap_eq : Part007.degreeMap = Index.degreeMap := rfl

lemma foldl_append_bind {α : Type} (g : List α → Nat → List α) (F : Nat → List α)
    (hg : ∀ t i, g t i = t ++ F i) :
    ∀ (n : Nat) (init : List α),
      (List.range n).foldl g init = init ++ (List.range n).flatMap F := by
  intro n
  induction n with
  | zero => simp
  | succ n ih =>
      intro init
      rw [List.range_succ, List.foldl_append, List.flatMap_append, ih, List.foldl_cons,
        List.foldl_nil, hg]
      simp [List.append_assoc]

lemma foldl_filter_skip {α β : Type} (p : α → Bool) (f : β → α → β)
    (hf : ∀ acc x, p x = false → f acc x = acc) :
    ∀ (l : List α) (acc : β), l.foldl f acc = (l.filter p).foldl f acc := by
  intro l
  induction l with
  | nil => simp
  | cons x xs ih =>
      intro acc
      by_cases hx : p x = true
      · simp [List.filter_cons, hx, ih]
      · rw [Bool.not_eq_true] at hx
        simp [List.filter_cons, hx, ih, hf acc x hx]

/-! ### Claim theorems for the music theory module (C1, C2) -/

/-- C1 (amended).  For every progression whose symbols are all in the degree
table, every 7-note scale and every base octave: the part_007 variant of
getChords follows the specified rule (pitch class at the unmodded index
reduced modulo 7, octave incremented by `floor(index / 7)`, hence exactly
when the unmodded index exceeds 6); the index.ts variant takes the same
modulo-7 pitch classes but puts the first two notes at the unchanged base
octave and the third note always at `octave + 1`, whether or not `base + 4`
exceeds 6. -/
theorem getChords_octave_rules (progression scale : List String) (octave : Nat)
    (h7 : scale.length = 7)
    (hsyms : ∀ sym ∈ progression, (Index.degreeMap (lowerString sym)).isSome = true) :
    Part007.getChords progression scale octave =
      progression.map (fun sym =>
        specTriad scale octave ((Index.degreeMap (lowerString sym)).getD 0)) ∧
    Index.getChords progression scale octave =
      progression.map (fun sym =>
        [ scale.getD ((Index.degreeMap (lowerString sym)).getD 0 % 7) "undefined" ++
            toString octave,
          scale.getD (((Index.degreeMap (lowerString sym)).getD 0 + 2) % 7) "undefined" ++
            toString octave,
          scale.getD (((Index.degreeMap (lowerString sym)).getD 0 + 4) % 7) "undefined" ++
            toString (octave + 1) ]) := by
  constructor
  · apply List.map_congr_left
    intro sym hmem
    obtain ⟨b, hb⟩ := Option.isSome_iff_exists.mp (hsyms sym hmem)
    rw [part007_degreeMap_eq, hb]
    simp [specTriad, Part007.getNote, h7, hb]
  · apply List.map_congr_left
    intro sym hmem
    obtain ⟨b, hb⟩ := Option.isSome_iff_exists.mp (hsyms sym hmem)
    have hlt : b < 7 := degreeMap_lt_seven _ _ hb
    rw [hb]
    simp [hb, Nat.mod_eq_of_lt hlt]

/-- C1 witness: the theorem applied to the progression ["vi"], the cMinor
scale and base octave 4. -/
theorem getChords_octave_rules_witness :
    Part007.getChords ["vi"] Index.cMinor 4 =
      (["vi"].map fun sym =>
        specTriad Index.cMinor 4 ((Index.degreeMap (lowerString sym)).getD 0)) ∧
    Index.getChords ["vi"] Index.cMinor 4 =
      (["vi"].map fun sym =>
        [ Index.cMinor.getD ((Index.degreeMap (lowerString sym)).getD 0 % 7) "undefined" ++
            toString 4,
          Index.cMinor.getD (((Index.degreeMap (lowerString sym)).getD 0 + 2) % 7) "undefined" ++
            toString 4,
          Index.cMinor.getD (((Index.degreeMap (lowerString sym)).getD 0 + 4) % 7) "undefined" ++
            toString (4 + 1) ]) :=
  getChords_octave_rules ["vi"] Index.cMinor 4 (by decide) (by decide)

/-- C1 counterexample.  For the progression ["i"], the cMinor scale and base
octave 4 the index.ts getChords returns `[["C4", "D#4", "G5"]]`: the third
note (unmodded index `0 + 4 = 4 ≤ 6`) does not carry the unchanged base
octave 4, contradicting the claimed rule, which predicts
`[["C4", "D#4", "G4"]]` (the specTriad value). -/
theorem getChords_third_note_octave_cex :
    Index.getChords ["i"] Index.cMinor 4 = [["C4", "D#4", "G5"]] ∧
    Index.getChords ["i"] Index.cMinor 4 ≠ [specTriad Index.cMinor 4 0] := by
  constructor
  · decide
  · decide

/-- C2.  The code contradicts the claim: for a progression containing the
symbol "viii", which is not a key of the degree table, index.ts getChords
does not return an error; it silently emits a chord whose notes are built
from the missing table entry (`scale[undefined]` interpolates to the text
"undefined"). -/
theorem getChords_unknown_symbol_no_error :
    Index.getChords ["viii"] Index.cMinor 4 =
      [["undefined4", "undefined4", "undefined5"]] := by decide

/-! ### Claim theorems for the drum and arpeggio generators (C5, C6) -/

/-- C5 (amended).  generateDrumTrack emits, for each section `s` at index
`i` and each measure `m` of that section, one tempo event followed by the
fill pattern exactly on the section's last measure when a following section
exists whose name is not "outro" (the needsFill condition — the following
section need not have a different name, and it may be the structure's final
section), and the section's normal pattern on every other measure; fill and
normal pattern are mutually exclusive because the fill event list differs
from every section pattern's event list. -/
theorem generateDrumTrack_fill_placement (struct : List Index.Section) :
    Index.generateDrumTrack struct =
      (List.range struct.length).flatMap (fun i =>
        match struct[i]? with
        | none => []
        | some s => (List.range s.length).flatMap (Index.measureChunk struct i s)) ∧
    (∀ i : Nat, Index.needsFill struct i = true ↔
      ∃ nxt, struct[i + 1]? = some nxt ∧ nxt.name ≠ Index.SectionName.outro) ∧
    (∀ s : Index.SectionName, Index.fillEvents ≠ Index.drumPatternEvents s) := by
  refine ⟨?_, ?_, fun s => by cases s <;> decide⟩
  · unfold Index.generateDrumTrack
    rw [foldl_append_bind _
      (fun i =>
        match struct[i]? with
        | none => []
        | some s => (List.range s.length).flatMap (Index.measureChunk struct i s))
      ?_ struct.length []]
    · rw [List.nil_append]
    · intro t i
      cases hget : struct[i]? with
      | none => simp [hget]
      | some sec =>
          simp only [hget]
          exact foldl_append_bind _ (Index.measureChunk struct i sec)
            (fun t2 m => by simp [Index.measureChunk, List.append_assoc]) sec.length t
  · intro i
    cases hget : struct[i + 1]? with
    | none => simp [Index.needsFill, hget]
    | some nxt =>
        obtain ⟨hlen, -⟩ := List.getElem?_eq_some.mp hget
        simp only [Index.needsFill, hget, Bool.and_eq_true, decide_eq_true_eq]
        constructor
        · rintro ⟨-, hname⟩
          refine ⟨nxt, rfl, ?_⟩
          simpa using hname
        · rintro ⟨nxt2, hnxt2, hname⟩
          have heq : nxt2 = nxt := by
            injection hnxt2 with hsame
            exact hsame.symm
          subst heq
          refine ⟨by omega, ?_⟩
          simpa using hname

/-- C5 counterexample.  For the structure `[verse:1, verse:1]` the code
emits the fill pattern on the last (only) measure of the first section even
though the following section is not a different section (same name
"verse") and is itself the structure's terminal section; the claim as
stated predicts the normal verse pattern there. -/
theorem generateDrumTrack_same_name_fill_cex :
    Index.generateDrumTrack
        [⟨Index.SectionName.verse, 1⟩, ⟨Index.SectionName.verse, 1⟩] =
      (Index.DrumEvent.tempo 120 0 :: Index.fillEvents) ++
        (Index.DrumEvent.tempo 120 0 :: Index.versePatternEvents) ∧
    Index.fillEvents ≠ Index.versePatternEvents := by
  constructor
  · decide
  · decide

/-- C6.  generateArpeggioTrack emits note events only for sections tagged
"chorus": the generated track is unchanged when all non-chorus sections are
removed from the structure, and a structure containing no chorus section at
all yields only the initial ProgramChangeEvent. -/
theorem generateArpeggioTrack_chorus_only (struct : List Index.Section)
    (chords : Index.ChordMap) (instrument : Nat) (rng : Nat → Bool) :
    Index.generateArpeggioTrack struct chords instrument rng =
      Index.generateArpeggioTrack
        (struct.filter fun s => s.name == Index.SectionName.chorus) chords instrument rng ∧
    ((∀ s ∈ struct, s.name ≠ Index.SectionName.chorus) →
      Index.generateArpeggioTrack struct chords instrument rng =
        [Index.ArpEvent.prog instrument]) := by
  have hskip : ∀ (acc : List Index.ArpEvent × Nat) (s : Index.Section),
      (s.name == Index.SectionName.chorus) = false →
      (fun (acc : List Index.ArpEvent × Nat) sec =>
        if sec.name ≠ Index.SectionName.chorus then acc
        else
          (List.range sec.length).foldl
            (fun (acc2 : List Index.ArpEvent × Nat) i =>
              let chord := chords.chorus.getD (i % chords.chorus.length) []
              let pat := if rng acc2.2 then Index.arpUp else Index.arpDown
              (acc2.1 ++ pat chord ++ pat chord ++ pat chord ++ pat chord,
               acc2.2 + 1))
            acc) acc s = acc := by
    intro acc s hs
    have : s.name ≠ Index.SectionName.chorus := by simpa using hs
    simp [this]
  constructor
  · unfold Index.generateArpeggioTrack
    rw [foldl_filter_skip _ _ hskip struct ([Index.ArpEvent.prog instrument], 0)]
  · intro hall
    have hfilter : (struct.filter fun s => s.name == Index.SectionName.chorus) = [] := by
      rw [List.filter_eq_nil_iff]
      intro s hs
      simpa using hall s hs
    unfold Index.generateArpeggioTrack
    rw [foldl_filter_skip _ _ hskip struct ([Index.ArpEvent.prog instrument], 0), hfilter]
    rfl

/-- C6 witness: the theorem applied to the structure
`[intro:2, verse:4, chorus:4, outro:2]` of end-to-end scenario 1 (first
conjunct) and to the chorus-free structure `[intro:2]` (second conjunct),
with a constant RNG stream and one concrete chorus chord. -/
theorem generateArpeggioTrack_chorus_only_witness :
    Index.generateArpeggioTrack
        [⟨Index.SectionName.intro, 2⟩, ⟨Index.SectionName.verse, 4⟩,
         ⟨Index.SectionName.chorus, 4⟩, ⟨Index.SectionName.outro, 2⟩]
        ⟨[["C4", "D#4", "G4"]], [["G4", "A#4", "D5"]]⟩ 80 (fun _ => true) =
      Index.generateArpeggioTrack
        ([⟨Index.SectionName.intro, 2⟩, ⟨Index.SectionName.verse, 4⟩,
          ⟨Index.SectionName.chorus, 4⟩, ⟨Index.SectionName.outro, 2⟩].filter
          fun s => s.name == Index.SectionName.chorus)
        ⟨[["C4", "D#4", "G4"]], [["G4", "A#4", "D5"]]⟩ 80 (fun _ => true) ∧
    Index.generateArpeggioTrack [⟨Index.SectionName.intro, 2⟩]
        ⟨[["C4", "D#4", "G4"]], [["G4", "A#4", "D5"]]⟩ 80 (fun _ => true) =
      [Index.ArpEvent.prog 80] :=
  ⟨(generateArpeggioTrack_chorus_only _ _ _ _).1,
   (generateArpeggioTrack_chorus_only _ _ _ _).2 (by decide)⟩

/-! ### Helper lemmas for the mixing engine -/

lemma foldl_length_inv {β : Type} (step : List ℚ → β → List ℚ)
    (h : ∀ t x, (step t x).length = t.length) :
    ∀ (l : List β) (t : List ℚ), (l.foldl step t).length = t.length := by
  intro l
  induction l with
  | nil => intro t; rfl
  | cons x xs ih => intro t; rw [List.foldl_cons, ih, h]

lemma mixWrite_length (t b : List ℚ) (o : Nat) :
    (Index3.mixWrite t b o).length = t.length :=
  foldl_length_inv _ (fun t _ => List.length_set t _ _) (List.range b.length) t

lemma mixWrite_go_getD (b : List ℚ) (o : Nat) :
    ∀ (n : Nat) (t : List ℚ) (k : Nat), o + n ≤ t.length →
      ((List.range n).foldl
          (fun t j => t.set (o + j) (t.getD (o + j) 0 + b.getD j 0)) t).getD k 0
        = t.getD k 0 + if o ≤ k ∧ k - o < n then b.getD (k - o) 0 else 0 := by
  intro n
  induction n with
  | zero => intro t k h; simp
  | succ n ih =>
      intro t k h
      have hn : o + n ≤ t.length := by omega
      have hlen :
          ((List.range n).foldl
            (fun t j => t.set (o + j) (t.getD (o + j) 0 + b.getD j 0)) t).length
            = t.length :=
        foldl_length_inv _ (fun t _ => List.length_set t _ _) (List.range n) t
      rw [List.range_succ, List.foldl_append, List.foldl_cons, List.foldl_nil]
      by_cases hk : k = o + n
      · subst hk
        rw [List.getD_eq_getElem?_getD, List.getElem?_set_self, Option.getD_some,
          ih t (o + n) hn]
        · have hcondn : ¬(o ≤ o + n ∧ o + n - o < n) := by omega
          have hcond : o ≤ o + n ∧ o + n - o < n + 1 := by omega
          rw [if_neg hcondn, if_pos hcond, add_zero]
          have : o + n - o = n := by omega
          rw [this]
        · omega
      · rw [List.getD_eq_getElem?_getD, List.getElem?_set_ne (fun hc => hk hc.symm),
          ← List.getD_eq_getElem?_getD, ih t k hn]
        by_cases ho : o ≤ k
        · have : (k - o < n + 1 ∧ o ≤ k) ↔ (k - o < n ∧ o ≤ k) := by omega
          by_cases hlt : k - o < n
          · rw [if_pos ⟨ho, hlt⟩, if_pos ⟨ho, by omega⟩]
          · have : ¬(o ≤ k ∧ k - o < n + 1) := by omega
            rw [if_neg (fun hc => hlt hc.2), if_neg this]
        · rw [if_neg (fun hc => ho hc.1), if_neg (fun hc => ho hc.1)]

lemma mixWrite_getD (t b : List ℚ) (o k : Nat) (h : o + b.length ≤ t.length) :
    (Index3.mixWrite t b o).getD k 0 = t.getD k 0 + Index3.contrib k (b, o) := by
  rw [Index3.mixWrite, mixWrite_go_getD b o b.length t k h, Index3.contrib]

lemma foldl_max_le_init : ∀ (l : List Nat) (a : Nat), a ≤ l.foldl max a := by
  intro l
  induction l with
  | nil => intro a; exact Nat.le_refl a
  | cons x xs ih => intro a; exact le_trans (Nat.le_max_left a x) (ih (max a x))

lemma mem_le_foldl_max : ∀ (l : List Nat) (a x : Nat), x ∈ l → x ≤ l.foldl max a := by
  intro l
  induction l with
  | nil => intro a x hx; cases hx
  | cons y ys ih =>
      intro a x hx
      rcases List.mem_cons.mp hx with h | h
      · subst h
        exact le_trans (Nat.le_max_right a x) (foldl_max_le_init ys (max a x))
      · exact ih (max a y) x h

lemma foldl_max_mem : ∀ (l : List Nat) (a : Nat), l.foldl max a = a ∨ l.foldl max a ∈ l := by
  intro l
  induction l with
  | nil => intro a; exact Or.inl rfl
  | cons x xs ih =>
      intro a
      rw [List.foldl_cons]
      rcases ih (max a x) with h | h
      · rw [h]
        rcases max_choice a x with hm | hm
        · exact Or.inl hm
        · rw [hm]
          exact Or.inr (List.mem_cons_self x xs)
      · exact Or.inr (List.mem_cons_of_mem x h)

lemma mem_le_mixLength (bos : List (List ℚ × Nat)) :
    ∀ bo ∈ bos, bo.1.length + bo.2 ≤ Index3.mixLength bos := by
  intro bo hbo
  exact mem_le_foldl_max _ 0 _ (List.mem_map_of_mem _ hbo)

lemma mixLength_attained (bos : List (List ℚ × Nat)) (hne : bos ≠ []) :
    ∃ bo ∈ bos, Index3.mixLength bos = bo.1.length + bo.2 := by
  rcases foldl_max_mem (bos.map fun bo => bo.1.length + bo.2) 0 with h | h
  · cases bos with
    | nil => exact absurd rfl hne
    | cons b l =>
        refine ⟨b, List.mem_cons_self b l, ?_⟩
        have hb : b.1.length + b.2 ≤ Index3.mixLength (b :: l) :=
          mem_le_mixLength _ b (List.mem_cons_self b l)
        have : Index3.mixLength (b :: l) = 0 := h
        omega
  · obtain ⟨bo, hbo, hval⟩ := List.mem_map.mp h
    exact ⟨bo, hbo, hval.symm⟩

lemma accumLoop_length (bos : List (List ℚ × Nat)) :
    (Index3.accumLoop bos).length = Index3.mixLength bos := by
  rw [Index3.accumLoop,
    foldl_length_inv _ (fun t bo => mixWrite_length t bo.1 bo.2) bos _,
    List.length_replicate]

lemma accumFold_getD :
    ∀ (bos : List (List ℚ × Nat)) (t : List ℚ) (k : Nat),
      (∀ bo ∈ bos, bo.2 + bo.1.length ≤ t.length) →
      (bos.foldl (fun t bo => Index3.mixWrite t bo.1 bo.2) t).getD k 0
        = t.getD k 0 + (bos.map (Index3.contrib k)).sum := by
  intro bos
  induction bos with
  | nil => intro t k h; simp
  | cons bo l ih =>
      intro t k h
      rw [List.foldl_cons, List.map_cons, List.sum_cons,
        ih (Index3.mixWrite t bo.1 bo.2) k ?_, mixWrite_getD t bo.1 bo.2 k ?_, add_assoc]
      · exact h bo (List.mem_cons_self bo l)
      · intro bo2 hbo2
        rw [mixWrite_length]
        exact h bo2 (List.mem_cons_of_mem bo hbo2)

lemma accumLoop_eq_map (bos : List (List ℚ × Nat)) :
    Index3.accumLoop bos =
      (List.range (Index3.mixLength bos)).map
        (fun k => (bos.map (Index3.contrib k)).sum) := by
  apply List.ext_getElem
  · rw [accumLoop_length, List.length_map, List.length_range]
  · intro k h1 h2
    have hk : k < Index3.mixLength bos := by
      rw [accumLoop_length] at h1
      exact h1
    have hval : (Index3.accumLoop bos).getD k 0 = 0 + (bos.map (Index3.contrib k)).sum := by
      rw [Index3.accumLoop, accumFold_getD bos _ k ?_, List.getD_eq_getElem?_getD]
      · rw [List.getElem?_replicate, if_pos hk]
        rfl
      · intro bo hbo
        rw [List.length_replicate]
        have := mem_le_mixLength bos bo hbo
        omega
    rw [← List.getD_eq_getElem (Index3.accumLoop bos) 0 h1, hval, zero_add]
    rw [List.getElem_map, List.getElem_range]

lemma le_peak_foldl : ∀ (l : List ℚ) (a : ℚ),
    a ≤ l.foldl (fun m v => if |v| > m then |v| else m) a := by
  intro l
  induction l with
  | nil => intro a; exact le_refl a
  | cons x xs ih =>
      intro a
      rw [List.foldl_cons]
      refine le_trans ?_ (ih _)
      by_cases hx : |x| > a
      · rw [if_pos hx]; exact le_of_lt hx
      · rw [if_neg hx]

lemma abs_le_peak : ∀ (l : List ℚ) (a : ℚ) (v : ℚ), v ∈ l →
    |v| ≤ l.foldl (fun m v => if |v| > m then |v| else m) a := by
  intro l
  induction l with
  | nil => intro a v hv; cases hv
  | cons x xs ih =>
      intro a v hv
      rw [List.foldl_cons]
      rcases List.mem_cons.mp hv with h | h
      · subst h
        refine le_trans ?_ (le_peak_foldl xs _)
        by_cases hx : |v| > a
        · rw [if_pos hx]
        · rw [if_neg hx]; exact not_lt.mp hx
      · exact ih _ v h

lemma peakOf_nonneg (l : List ℚ) : 0 ≤ Index3.peakOf l := le_peak_foldl l 0

lemma abs_le_peakOf (l : List ℚ) (v : ℚ) (hv : v ∈ l) : |v| ≤ Index3.peakOf l :=
  abs_le_peak l 0 v hv

/-! ### Claim theorems for mixBuffers and mixAudio (C3, C4, C9) -/

/-- C4.  On every successful (non-empty) input, mixBuffers pre-normalization
accumulation is exactly the pointwise sum of the contributing buffers: the
output has length `mixLength bos` (which is the maximum of
`buffer.length + offset` over all pairs, attained by one of them), and the
accumulated track is the list whose entry at each `k < mixLength bos` is
the sum of `buffer[k - offset]` over the pairs whose span covers `k`. -/
theorem mixBuffers_accumulation (bos : List (List ℚ × Nat)) (out : List ℚ)
    (h : Index3.mixBuffers bos = some out) :
    out.length = Index3.mixLength bos ∧
    (∀ bo ∈ bos, bo.1.length + bo.2 ≤ Index3.mixLength bos) ∧
    (∃ bo ∈ bos, Index3.mixLength bos = bo.1.length + bo.2) ∧
    Index3.accumLoop bos =
      (List.range (Index3.mixLength bos)).map
        (fun k => (bos.map (Index3.contrib k)).sum) := by
  have hne : bos ≠ [] := by
    intro hcon
    subst hcon
    simp [Index3.mixBuffers] at h
  refine ⟨?_, mem_le_mixLength bos, mixLength_attained bos hne, accumLoop_eq_map bos⟩
  cases bos with
  | nil => exact absurd rfl hne
  | cons b l =>
      have hout : out =
          (if Index3.peakOf (Index3.accumLoop (b :: l)) > 1 then
            (Index3.accumLoop (b :: l)).map
              (fun v => v / Index3.peakOf (Index3.accumLoop (b :: l)))
          else Index3.accumLoop (b :: l)) := by
        have := h
        rw [Index3.mixBuffers] at this
        exact (Option.some.inj this).symm
      rw [hout]
      by_cases hpeak : Index3.peakOf (Index3.accumLoop (b :: l)) > 1
      · rw [if_pos hpeak, List.length_map, accumLoop_length]
      · rw [if_neg hpeak, accumLoop_length]

/-- C4 witness: the theorem applied to two buffers [1,2,3] and [5] at
offsets 0 and 2 (mixBuffers succeeds with the normalized output
[1/8, 1/4, 1], so the hypothesis is discharged by evaluation). -/
theorem mixBuffers_accumulation_witness :
    ([(1 : ℚ) / 8, 1 / 4, 1] : List ℚ).length =
      Index3.mixLength [([(1 : ℚ), 2, 3], 0), ([(5 : ℚ)], 2)] ∧
    Index3.accumLoop [([(1 : ℚ), 2, 3], 0), ([(5 : ℚ)], 2)] =
      (List.range (Index3.mixLength [([(1 : ℚ), 2, 3], 0), ([(5 : ℚ)], 2)])).map
        (fun k =>
          (([([(1 : ℚ), 2, 3], 0), ([(5 : ℚ)], 2)]).map (Index3.contrib k)).sum) := by
  have happ := mixBuffers_accumulation [([(1 : ℚ), 2, 3], 0), ([(5 : ℚ)], 2)]
    [(1 : ℚ) / 8, 1 / 4, 1]
    (by norm_num [Index3.mixBuffers, Index3.accumLoop, Index3.mixWrite, Index3.mixLength,
          Index3.peakOf, List.range_succ, List.replicate_succ, List.set_cons_zero,
          List.set_cons_succ, abs_of_nonneg])
  exact ⟨happ.1, happ.2.2.2⟩

/-- C9.  mixBuffers is not total on the empty input: applied to an empty
list of buffer/offset pairs it fails (in JavaScript `Math.max()` is
`-Infinity` and `new Float32Array(-Infinity)` throws a RangeError, modelled
here as `none`) instead of returning an empty buffer. -/
theorem mixBuffers_empty_fails : Index3.mixBuffers [] = none := rfl

lemma jv_foldl_le {f : ℚ → JV → ℚ} (hf : ∀ m v, m ≤ f m v) :
    ∀ (l : List JV) (a : ℚ), a ≤ l.foldl f a := by
  intro l
  induction l with
  | nil => intro a; exact le_refl a
  | cons x xs ih => intro a; exact le_trans (hf a x) (ih (f a x))

lemma jv_foldl_num_le {f : ℚ → JV → ℚ} (hf : ∀ m v, m ≤ f m v)
    (hnum : ∀ m q, |q| ≤ f m (JV.num q)) :
    ∀ (l : List JV) (a q : ℚ), JV.num q ∈ l → |q| ≤ l.foldl f a := by
  intro l
  induction l with
  | nil => intro a q hq; cases hq
  | cons x xs ih =>
      intro a q hq
      rw [List.foldl_cons]
      rcases List.mem_cons.mp hq with h | h
      · subst h
        exact le_trans (hnum a q) (jv_foldl_le hf xs (f a (JV.num q)))
      · exact ih _ q h

lemma jpeak_step_le :
    ∀ (m : ℚ) (v : JV),
      m ≤ (match v with
           | JV.nan => m
           | JV.num q => if |q| > m then |q| else m) := by
  intro m v
  cases v with
  | nan => exact le_refl m
  | num q =>
      show m ≤ if |q| > m then |q| else m
      by_cases h : |q| > m
      · rw [if_pos h]; exact le_of_lt h
      · rw [if_neg h]

lemma num_abs_le_jpeak (l : List JV) (q : ℚ) (h : JV.num q ∈ l) :
    |q| ≤ Index.jpeak l := by
  rw [Index.jpeak]
  refine jv_foldl_num_le jpeak_step_le ?_ l 0 q h
  intro m q2
  show |q2| ≤ if |q2| > m then |q2| else m
  by_cases h2 : |q2| > m
  · rw [if_pos h2]
  · rw [if_neg h2]; exact not_lt.mp h2

lemma mixedRaw_num (music nature : List ℚ) (vol : ℚ) (hne : nature ≠ []) :
    ∀ v ∈ Index.mixedRaw music nature vol, ∃ q, v = JV.num q := by
  intro v hv
  rw [Index.mixedRaw] at hv
  obtain ⟨i, hi, rfl⟩ := List.mem_map.mp hv
  cases nature with
  | nil => exact absurd rfl hne
  | cons x xs => exact ⟨_, rfl⟩

lemma jpeak_replicate_nan (n : Nat) : Index.jpeak (List.replicate n JV.nan) = 0 := by
  have key : ∀ (n : Nat) (a : ℚ),
      (List.replicate n JV.nan).foldl
        (fun m v => match v with
          | JV.nan => m
          | JV.num q => if |q| > m then |q| else m) a = a := by
    intro n
    induction n with
    | zero => intro a; rfl
    | succ n ih =>
        intro a
        rw [List.replicate_succ, List.foldl_cons]
        exact ih a
  rw [Index.jpeak]
  exact key n 0

/-- C3.  Peak normalization in both mixers: every sample of a successful
mixBuffers output has absolute value at most 1; when the accumulated track
already has peak at most 1, mixBuffers returns exactly the plain pointwise
sums of the contributing buffers (the normalization pass changes nothing);
for a non-empty ambient buffer every mixAudio output sample is an ordinary
number of absolute value at most 1; and when the accumulated mixAudio
signal has peak at most 1 the output is exactly the accumulated signal. -/
theorem mix_normalization_bounds :
    (∀ (bos : List (List ℚ × Nat)) (out : List ℚ), Index3.mixBuffers bos = some out →
      ∀ v ∈ out, |v| ≤ 1) ∧
    (∀ bos : List (List ℚ × Nat), bos ≠ [] →
      Index3.peakOf (Index3.accumLoop bos) ≤ 1 →
      Index3.mixBuffers bos =
        some ((List.range (Index3.mixLength bos)).map
          (fun k => (bos.map (Index3.contrib k)).sum))) ∧
    (∀ (music nature : List ℚ) (vol : ℚ), nature ≠ [] →
      ∀ v ∈ Index.mixAudio music nature vol, ∃ q, v = JV.num q ∧ |q| ≤ 1) ∧
    (∀ (music nature : List ℚ) (vol : ℚ),
      Index.jpeak (Index.mixedRaw music nature vol) ≤ 1 →
      Index.mixAudio music nature vol = Index.mixedRaw music nature vol) := by
  refine ⟨?_, ?_, ?_, ?_⟩
  · intro bos out h v hv
    cases bos with
    | nil => simp [Index3.mixBuffers] at h
    | cons b l =>
        rw [Index3.mixBuffers] at h
        have hout := (Option.some.inj h).symm
        by_cases hpeak : Index3.peakOf (Index3.accumLoop (b :: l)) > 1
        · rw [if_pos hpeak] at hout
          subst hout
          obtain ⟨w, hw, rfl⟩ := List.mem_map.mp hv
          rw [abs_div, abs_of_pos (lt_trans one_pos hpeak)]
          exact div_le_one_of_le₀ (abs_le_peakOf _ w hw) (le_of_lt (lt_trans one_pos hpeak))
        · rw [if_neg hpeak] at hout
          subst hout
          exact le_trans (abs_le_peakOf _ v hv) (not_lt.mp hpeak)
  · intro bos hne hpeak
    cases bos with
    | nil => exact absurd rfl hne
    | cons b l =>
        rw [Index3.mixBuffers, if_neg (not_lt.mpr hpeak), accumLoop_eq_map]
  · intro music nature vol hne v hv
    simp only [Index.mixAudio] at hv
    by_cases hpeak : Index.jpeak (Index.mixedRaw music nature vol) > 1
    · rw [if_pos hpeak] at hv
      obtain ⟨w, hw, rfl⟩ := List.mem_map.mp hv
      obtain ⟨q, rfl⟩ := mixedRaw_num music nature vol hne w hw
      refine ⟨q / Index.jpeak (Index.mixedRaw music nature vol), rfl, ?_⟩
      rw [abs_div, abs_of_pos (lt_trans one_pos hpeak)]
      exact div_le_one_of_le₀ (num_abs_le_jpeak _ q hw) (le_of_lt (lt_trans one_pos hpeak))
    · rw [if_neg hpeak] at hv
      obtain ⟨q, rfl⟩ := mixedRaw_num music nature vol hne v hv
      exact ⟨q, rfl, le_trans (num_abs_le_jpeak _ q hv) (not_lt.mp hpeak)⟩
  · intro music nature vol hpeak
    simp only [Index.mixAudio]
    rw [if_neg (not_lt.mpr hpeak)]

/-- C3 witness: the theorem applied to the single buffer [1/2] at offset 0
(both mixBuffers conjuncts) and to mixAudio of the one-sample music buffer
[1/2] with ambient [1/4] at volume 1 (accumulated peak 3/4 ≤ 1). -/
theorem mix_normalization_bounds_witness :
    |(1 : ℚ) / 2| ≤ 1 ∧
    Index3.mixBuffers [([(1 : ℚ) / 2], 0)] =
      some ((List.range (Index3.mixLength [([(1 : ℚ) / 2], 0)])).map
        (fun k => (([([(1 : ℚ) / 2], 0)]).map (Index3.contrib k)).sum)) ∧
    Index.mixAudio [(1 : ℚ) / 2] [(1 : ℚ) / 4] 1 =
      Index.mixedRaw [(1 : ℚ) / 2] [(1 : ℚ) / 4] 1 := by
  refine ⟨?_, ?_, ?_⟩
  · refine mix_normalization_bounds.1 [([(1 : ℚ) / 2], 0)] [(1 : ℚ) / 2] ?_ ((1 : ℚ) / 2)
      (by simp)
    norm_num [Index3.mixBuffers, Index3.accumLoop, Index3.mixWrite, Index3.mixLength,
      Index3.peakOf, List.range_succ, List.replicate_succ, List.set_cons_zero,
      List.set_cons_succ, abs_of_nonneg]
  · refine mix_normalization_bounds.2.1 [([(1 : ℚ) / 2], 0)] (by simp) ?_
    norm_num [Index3.accumLoop, Index3.mixWrite, Index3.mixLength, Index3.peakOf,
      List.range_succ, List.replicate_succ, List.set_cons_zero, List.set_cons_succ,
      abs_of_nonneg]
  · refine mix_normalization_bounds.2.2.2 [(1 : ℚ) / 2] [(1 : ℚ) / 4] 1 ?_
    norm_num [Index.jpeak, Index.mixedRaw, Index.natureSampleAt, jadd, List.range_succ,
      abs_of_nonneg]

/-- C10.  mixAudio requires a non-empty ambient buffer: with an empty
ambient buffer every output sample is NaN (the wraparound read
`natureBuffer[i % 0]` is undefined and arithmetic on it yields NaN), the
peak-normalization guard never fires (NaN comparisons are false, so the
peak stays 0), and no error is raised — a buffer of the music's length is
still returned; for every ambient buffer of positive length the output
length equals the music buffer's length. -/
theorem mixAudio_empty_nan_and_length :
    (∀ (music : List ℚ) (vol : ℚ),
      Index.mixAudio music [] vol = List.replicate music.length JV.nan) ∧
    (∀ (music nature : List ℚ) (vol : ℚ), 0 < nature.length →
      (Index.mixAudio music nature vol).length = music.length) := by
  constructor
  · intro music vol
    have hraw : Index.mixedRaw music [] vol = List.replicate music.length JV.nan := by
      rw [Index.mixedRaw]
      apply List.ext_getElem
      · rw [List.length_map, List.length_range, List.length_replicate]
      · intro k h1 h2
        rw [List.getElem_map, List.getElem_range, List.getElem_replicate]
        rfl
    simp only [Index.mixAudio, hraw, jpeak_replicate_nan]
    norm_num
  · intro music nature vol hlen
    have hlenraw : (Index.mixedRaw music nature vol).length = music.length := by
      rw [Index.mixedRaw, List.length_map, List.length_range]
    simp only [Index.mixAudio]
    by_cases hpeak : Index.jpeak (Index.mixedRaw music nature vol) > 1
    · rw [if_pos hpeak, List.length_map, hlenraw]
    · rw [if_neg hpeak, hlenraw]

/-- C10 witness: the theorem applied to music [1] with the empty ambient
buffer, and to music [1, 2] with the one-sample ambient buffer [1/3]. -/
theorem mixAudio_empty_nan_and_length_witness :
    Index.mixAudio [(1 : ℚ)] [] (2 / 5) = List.replicate ([(1 : ℚ)]).length JV.nan ∧
    (Index.mixAudio [(1 : ℚ), 2] [(1 : ℚ) / 3] (2 / 5)).length = ([(1 : ℚ), 2]).length :=
  ⟨mixAudio_empty_nan_and_length.1 [(1 : ℚ)] (2 / 5),
   mixAudio_empty_nan_and_length.2 [(1 : ℚ), 2] [(1 : ℚ) / 3] (2 / 5) (by simp)⟩

/-- C7.  For every decoded channel and positive rational rates, the
resampled buffer returned by loadSample has length exactly
`floor(inputLength * targetRate / inputRate)`, and each output sample `i`
is the input sample at the nearest-neighbor index
`floor(i * inputRate / targetRate)`, which is always in bounds. -/
theorem loadSample_resample (channelData : List ℚ) (sampleRate targetSampleRate : ℚ)
    (hin : 0 < sampleRate) (ht : 0 < targetSampleRate) :
    (Index3.loadSample channelData sampleRate targetSampleRate).length =
      Int.toNat ⌊(channelData.length : ℚ) * targetSampleRate / sampleRate⌋ ∧
    ∀ i < (Index3.loadSample channelData sampleRate targetSampleRate).length,
      Int.toNat ⌊(i : ℚ) * sampleRate / targetSampleRate⌋ < channelData.length ∧
      (Index3.loadSample channelData sampleRate targetSampleRate).getD i 0 =
        channelData.getD (Int.toNat ⌊(i : ℚ) * sampleRate / targetSampleRate⌋) 0 := by
  constructor
  · rw [Index3.loadSample, List.length_map, List.length_range]
  · intro i hi
    rw [Index3.loadSample, List.length_map, List.length_range] at hi
    have hn : channelData.length ≠ 0 := by
      intro h0
      rw [h0] at hi
      norm_num at hi
    constructor
    · have h1 : (i : ℤ) < ⌊(channelData.length : ℚ) * targetSampleRate / sampleRate⌋ :=
        Int.lt_toNat.mp hi
      have h2 : ((i : ℤ) + 1 : ℚ) ≤ (channelData.length : ℚ) * targetSampleRate / sampleRate := by
        have := Int.add_one_le_iff.mpr h1
        exact_mod_cast Int.le_floor.mp this
      have h3 : ((i : ℚ) + 1) * sampleRate ≤ (channelData.length : ℚ) * targetSampleRate := by
        rw [← le_div_iff₀ hin]
        push_cast at h2
        exact h2
      have h4 : (i : ℚ) * sampleRate < (channelData.length : ℚ) * targetSampleRate := by
        have hstep : (i : ℚ) * sampleRate < ((i : ℚ) + 1) * sampleRate := by
          have : (i : ℚ) < (i : ℚ) + 1 := lt_add_one _
          exact mul_lt_mul_of_pos_right this hin
        exact lt_of_lt_of_le hstep h3
      have h5 : (i : ℚ) * sampleRate / targetSampleRate < (channelData.length : ℚ) :=
        (div_lt_iff₀ ht).mpr h4
      have h6 : ⌊(i : ℚ) * sampleRate / targetSampleRate⌋ < (channelData.length : ℤ) := by
        rw [Int.floor_lt]
        push_cast
        exact h5
      exact (Int.toNat_lt' hn).mpr h6
    · have hi2 : i < (Index3.loadSample channelData sampleRate targetSampleRate).length := by
        rw [Index3.loadSample, List.length_map, List.length_range]
        exact hi
      rw [List.getD_eq_getElem _ 0 hi2]
      simp only [Index3.loadSample, List.getElem_map, List.getElem_range]

/-- C7 witness: the theorem applied to the channel [1, 2, 3] resampled from
rate 2 to rate 3 (output length 4), instantiated at output index 1. -/
theorem loadSample_resample_witness :
    Int.toNat ⌊((1 : Nat) : ℚ) * 2 / 3⌋ < ([(1 : ℚ), 2, 3]).length ∧
    (Index3.loadSample [(1 : ℚ), 2, 3] 2 3).getD 1 0 =
      ([(1 : ℚ), 2, 3]).getD (Int.toNat ⌊((1 : Nat) : ℚ) * 2 / 3⌋) 0 := by
  refine (loadSample_resample [(1 : ℚ), 2, 3] 2 3 (by norm_num) (by norm_num)).2 1 ?_
  have h4 : Int.toNat ⌊(([(1 : ℚ), 2, 3]).length : ℚ) * 3 / 2⌋ = 4 := by
    norm_num
    rfl
  rw [(loadSample_resample [(1 : ℚ), 2, 3] 2 3 (by norm_num) (by norm_num)).1, h4]
  norm_num

/-- C8.  pitchShift with 0 semitones is the identity: the resampling factor
`2 ^ (0 / 12)` is exactly 1, so the output has the same length and every
sample equals the corresponding input sample. -/
theorem pitchShift_zero_identity (buffer : List ℚ) :
    Index3.pitchShift buffer 0 = buffer := by
  rw [Index3.pitchShift]
  simp only [Int.cast_zero, zero_div, Real.rpow_zero, div_one, mul_one,
    Int.floor_natCast, Int.toNat_natCast]
  apply List.ext_getElem
  · rw [List.length_map, List.length_range]
  · intro k h1 h2
    rw [List.getElem_map, List.getElem_range, List.getD_eq_getElem buffer 0 h2]
